import Mathlib

/-!
Shallow embedding of the core of the joplin-plugin-pages-publisher
repository: the Page aggregate with its markdown field encoding
(src/domain/model/Page.ts), the article URL assignment
(ArticleService), the theme loading of SiteService, and the git publish
worker (initRepo / publish).

JavaScript objects holding field values are embedded as association
lists of string keys and dynamic values; JavaScript dynamic values are
embedded as the inductive type JSValue.  Stateful operations are
embedded as explicit state-passing functions; fallible operations
return Except.  Asynchronous git-library calls are embedded as an
emitted trace of actions together with an explicit repository state.
-/

namespace Publisher

/-- A JavaScript runtime value, as far as the embedded code inspects it:
the code only ever distinguishes strings (lodash isString) from
everything else, so the remaining constructors are opaque carriers. -/
inductive JSValue where
  | null : JSValue
  | bool (b : Bool) : JSValue
  | num (n : Int) : JSValue
  | str (s : String) : JSValue
deriving DecidableEq, Repr

/-- True exactly on string values: lodash isString. -/
def JSValue.isStr : JSValue → Bool
  | .str _ => true
  | _ => false

/-- A JavaScript object used as a record of field variables
(type Vars = Record of string to any, src/domain/model/Page.ts).
Association list; the operations below give it JS object semantics. -/
abbrev Vars := List (String × JSValue)

/-- Property read: first entry with the given key (JS objects hold at
most one entry per key, so first = the entry). -/
def Vars.get : Vars → String → Option JSValue
  | [], _ => none
  | (k', v') :: rest, k => if k' = k then some v' else Vars.get rest k

/-- Property write, JS semantics: an existing key keeps its position and
gets the new value, a fresh key is appended. -/
def Vars.set : Vars → String → JSValue → Vars
  | [], k, v => [(k, v)]
  | (k', v') :: rest, k, v =>
    if k' = k then (k', v) :: rest else (k', v') :: Vars.set rest k v

/-- Object.assign(target, source): every entry of the source is written
onto the target, in source order. -/
def Vars.assign (target source : Vars) : Vars :=
  source.foldl (fun acc kv => Vars.set acc kv.1 kv.2) target

/-- lodash mapValues: rebuild the object applying f to every value
(f also receives the key, as in the source). -/
def Vars.mapValues (f : String → JSValue → JSValue) : Vars → Vars
  | [] => []
  | (k, v) :: rest => (k, f k v) :: Vars.mapValues f rest

/-- The keys of an object, in order. -/
def Vars.keys (o : Vars) : List String := o.map Prod.fst

/-- A theme-declared or predefined input field
(interface Field, src/domain/model/Page.ts).  The rules and options
members are never inspected by the embedded operations and are
omitted. -/
structure Field where
  name : String
  label : Option String := none
  tip : Option String := none
  placeholder : Option String := none
  defaultValue : Option JSValue := none
  inputType : Option String := none
deriving DecidableEq, Repr

/-- The content-type marker for markdown fields; source constant
MARKDOWN_CONTENT_PREFIX = 'markdown://' (the source name is avoided
here for lexical reasons only). -/
def markdownMarker : String := "markdown://"

/-- Source constant INDEX_PAGE_NAME. -/
def INDEX_PAGE_NAME : String := "index"

/-- Source constant ARTICLE_PAGE_NAME. -/
def ARTICLE_PAGE_NAME : String := "article"

/-- The predefined dateFormat field of the article page
(PREDEFINED_FIELDS in src/domain/model/Page.ts). -/
def dateFormatField : Field :=
  { name := "dateFormat"
    label := some "Date Format"
    defaultValue := some (JSValue.str "YYYY-MM-DD HH:mm")
    placeholder := some "Default value is YYYY-MM-DD HH:mm." }

/-- PREDEFINED_FIELDS: a record mapping page names to predefined
fields; only the article page has an entry. -/
def PREDEFINED_FIELDS (name : String) : Option (List Field) :=
  if name = ARTICLE_PAGE_NAME then some [dateFormatField] else none

/-- The url field synthesized for every non-index page
(the first element of Page.fields in the source). -/
def urlField (name : String) : Field :=
  { name := "url"
    label := some "Url"
    placeholder := some ("Default value is " ++ name) }

/-- A theme bundle as consumed by the embedded code: a name, the
per-page field declarations, and the site-level fields.  (The model
file Theme.ts is not part of the given sources; the shape follows its
uses in Page.ts / SiteService and the spec's Theme description.) -/
structure Theme where
  name : String
  pages : List (String × List Field) := []
  siteFields : List Field := []
deriving DecidableEq, Repr

/-- Page.fields: compact([url field unless index, ...predefined fields
for this name, ...theme-declared fields for this name]). -/
def Page.fieldsFor (name : String) (themeConfig : Theme) : List Field :=
  (if name = INDEX_PAGE_NAME then [] else [urlField name])
    ++ ((PREDEFINED_FIELDS name).getD [])
    ++ ((List.lookup name themeConfig.pages).getD [])

/-- The Page aggregate (class Page, src/domain/model/Page.ts): a page
name, the theme it was built against, and the current field variable
object. -/
structure Page where
  name : String
  themeConfig : Theme
  fieldVars : Vars
deriving DecidableEq, Repr

/-- The derived field list of a constructed page. -/
def Page.fields (p : Page) : List Field := Page.fieldsFor p.name p.themeConfig

/-- Page.getMarkdownFieldNames: names of the fields whose inputType is
markdown. -/
def getMarkdownFieldNames (fields : List Field) : List String :=
  (fields.filter (fun f => f.inputType = some "markdown")).map Field.name

/-- Derived markdownFieldNames getter of a page. -/
def Page.markdownFieldNames (p : Page) : List String :=
  getMarkdownFieldNames p.fields

/-- Page.trimMarkdownPrefix (the source name is avoided for lexical
reasons): content.replace(anchored regex for the markdown marker, '') -
removes the marker when the string starts with it, otherwise returns
the string unchanged. -/
def trimMarkdownMarker (content : String) : String :=
  if markdownMarker.data.isPrefixOf content.data then
    String.mk (content.data.drop markdownMarker.data.length)
  else content

/-- The per-entry transformation applied by Page.setValues: markdown
fields holding a string get the marker stripped, everything else passes
through unchanged. -/
def decodeValue (mdNames : List String) (k : String) (v : JSValue) : JSValue :=
  if k ∈ mdNames then
    match v with
    | .str s => .str (trimMarkdownMarker s)
    | v' => v'
  else v

/-- The per-entry transformation applied by Page.outputValues: markdown
fields holding a string get the marker prepended, everything else
passes through unchanged. -/
def encodeValue (mdNames : List String) (k : String) (v : JSValue) : JSValue :=
  if k ∈ mdNames then
    match v with
    | .str s => .str (markdownMarker ++ s)
    | v' => v'
  else v

/-- Page.setValues(values): Object.assign(fieldVars, mapValues(values,
decode)). -/
def Page.setValues (p : Page) (values : Vars) : Page :=
  { p with
    fieldVars :=
      Vars.assign p.fieldVars (Vars.mapValues (decodeValue p.markdownFieldNames) values) }

/-- Page.outputValues(): mapValues(fieldVars, encode). -/
def Page.outputValues (p : Page) : Vars :=
  Vars.mapValues (encodeValue p.markdownFieldNames) p.fieldVars

/-- The fields.reduce initialisation in the Page constructor: an object
with one null-valued entry per declared field. -/
def initVars (fields : List Field) : Vars :=
  fields.foldl (fun acc f => Vars.set acc f.name JSValue.null) []

/-- new Page(name, fieldVars, themeConfig): initialise every declared
field to null, then setValues the persisted field variables.  Total: no
input makes it fail. -/
def mkPage (name : String) (persisted : Vars) (themeConfig : Theme) : Page :=
  (Page.mk name themeConfig (initVars (Page.fieldsFor name themeConfig))).setValues persisted

/-- A sequence of setValues calls applied in order. -/
def applyCalls (calls : List Vars) (p : Page) : Page :=
  calls.foldl Page.setValues p

/-- A note-backed article as far as the URL logic inspects it.  The
model file Article.ts is not part of the given sources; the shape
follows the spec's Article description and the uses in ArticleService
(src/unnamed/part_006).  Members never inspected by the embedded
operations (tags, content, images, ...) are omitted. -/
structure Article where
  noteId : String
  url : String
  published : Bool := true
deriving DecidableEq, Repr

/-- ArticleService.isValidUrl(newUrl, noteId): false exactly when some
article with a different noteId already holds the url.  The noteId
parameter is optional in the source (unknown); an omitted argument is
none. -/
def isValidUrl (articles : List Article) (newUrl : String) (noteId : Option String) : Bool :=
  !(articles.any (fun a => decide (some a.noteId ≠ noteId) && decide (a.url = newUrl)))

/-- The candidate built in the getValidUrl loop: baseUrl-index with the
decimal rendering of the counter. -/
def candidateUrl (baseUrl : String) (index : Nat) : String :=
  baseUrl ++ "-" ++ Nat.repr index

/-- The while loop of ArticleService.getValidUrl, with explicit fuel.
The source loop carries url and index; each iteration either returns
the current url (valid) or moves to the next candidate.  Fuel only
bounds the iteration count; getValidUrl_total shows the fuel used below
never runs out. -/
def getValidUrlAux (articles : List Article) (baseUrl : String) :
    String → Nat → Nat → Option String
  | _, _, 0 => none
  | url, index, fuel + 1 =>
    if isValidUrl articles url none then some url
    else getValidUrlAux articles baseUrl (candidateUrl baseUrl index) (index + 1) fuel

/-- ArticleService.getValidUrl(baseUrl): url = baseUrl, index = 1, loop
until valid.  articles.length + 1 fuel suffices (getValidUrl_total), so
the getD default is never taken. -/
def getValidUrl (articles : List Article) (baseUrl : String) : String :=
  (getValidUrlAux articles baseUrl baseUrl 1 (articles.length + 1)).getD baseUrl

/-- N rounds of the publish-an-article flow: ask getValidUrl for a url
for the same base, save an article carrying that url into the
collection, repeat.  Returns the urls handed out, in order. -/
def publishRound : Nat → List Article → String → List String
  | 0, _, _ => []
  | n + 1, articles, base =>
    let u := getValidUrl articles base
    u :: publishRound n (articles ++ [{ noteId := "", url := u }]) base

/-- The claim C5 reads literally: N calls of getValidUrl with the same
base against one unchanged collection containing the base url give
pairwise distinct results, each beginning with base.  The collection is
read, never written, by getValidUrl, so the N results coincide. -/
def claimFiveLiteral : Prop :=
  ∀ (articles : List Article) (base : String) (n : Nat),
    (∃ a ∈ articles, a.url = base) →
    (List.replicate n (getValidUrl articles base)).Nodup
      ∧ ∀ u ∈ List.replicate n (getValidUrl articles base), ∃ t, u = base ++ t

/-- A collection already holding an article whose url is the base. -/
def cexArticles : List Article := [{ noteId := "n1", url := "a" }]

/-! Git publish worker (src/unnamed/part_001). -/

/-- The observable steps of the publish operation, in execution order:
the fixed pre-publish delay and the git operations. -/
inductive PubAction where
  | delay (ms : Nat)
  | addAll
  | listFilesOn (ref : String)
  | removeFile (filepath : String)
  | commitTo (message ref : String)
  | pushTo (ref : String)
deriving DecidableEq, Repr

/-- Whether a step touches the repository (everything except the
delay). -/
def repoAffecting : PubAction → Bool
  | .delay _ => false
  | _ => true

/-- JavaScript String.prototype.replace with a plain string pattern and
empty replacement: delete the first occurrence of the pattern, scanning
left to right. -/
def replaceFirstAux (pat : List Char) : List Char → List Char
  | [] => []
  | c :: rest =>
    if pat.isPrefixOf (c :: rest) then (c :: rest).drop pat.length
    else c :: replaceFirstAux pat rest

/-- path.replace(dir + '/', ''): strip the working-directory marker
from a path (first occurrence, as String.replace does). -/
def stripDir (dir : String) (path : String) : String :=
  String.mk (replaceFirstAux (dir ++ "/").data path.data)

/-- The state of the shadow repository the worker manipulates: the
files materialized in the working tree (paths relative to dir), the
git index, and the files tracked by the last commit on the target
branch. -/
structure RepoState where
  workingTree : List String
  index : List String
  branchFiles : List String
deriving DecidableEq, Repr

/-- workerGit.publish: wait the fixed 3000 ms delay, stage everything
(add with filepath '.'), list the files of the last commit on the
branch, remove from the index each listed file absent from the new file
set (files with the dir marker stripped - lodash difference), commit
the index to the branch, push.  Returns the final repository state, the
list of filepaths passed to remove, and the emitted action trace. -/
def publishGit (dir branchRef : String) (files : List String) (st : RepoState) :
    RepoState × List String × List PubAction :=
  let files' := files.map (stripDir dir)
  let idx1 := st.index ++ st.workingTree.filter (fun p => p ∉ st.index)
  let filesExisted := st.branchFiles
  let deletedFiles := filesExisted.filter (fun f => f ∉ files')
  let idx2 := idx1.filter (fun p => p ∉ deletedFiles)
  let st' : RepoState := { st with index := idx2, branchFiles := idx2 }
  let trace :=
    [PubAction.delay 3000, PubAction.addAll, PubAction.listFilesOn branchRef]
      ++ deletedFiles.map PubAction.removeFile
      ++ [PubAction.commitTo "test" branchRef, PubAction.pushTo branchRef]
  (st', deletedFiles, trace)

/-! initRepo (src/unnamed/part_001). -/

/-- The github credentials and options handed to the worker; branch is
optional in the source. -/
structure GithubInfo where
  userName : String
  email : String
  token : String
  branch : Option String := none
deriving DecidableEq, Repr

/-- The local repository locations and remote coordinates. -/
structure GitInfo where
  dir : String
  gitdir : String
  url : String
  remote : String
deriving DecidableEq, Repr

/-- The observable steps of initRepo, in execution order. -/
inductive InitAction where
  | emptyDir (path : String)
  | cloneRepo (url remote : String) (depth : Nat) (noCheckout : Bool) (username password : String)
  | createBranch (ref : String)
  | setConfig (path value : String)
deriving DecidableEq, Repr

/-- The branch name initRepo works with: the supplied branch, or the
literal 'master' when none is supplied (the destructuring default in
the source). -/
def initRepoBranch (gh : GithubInfo) : String := gh.branch.getD "master"

/-- workerGit.initRepo: empty the metadata directory and the working
directory, clone shallow (depth 1) without checkout under the supplied
credentials, create the target branch when the cloned repository's
branch list lacks it, set user.name and user.email.  clonedBranches is
what listBranches returns after the clone. -/
def initRepo (gh : GithubInfo) (git : GitInfo) (clonedBranches : List String) :
    List InitAction :=
  let branchName := initRepoBranch gh
  [InitAction.emptyDir git.gitdir, InitAction.emptyDir git.dir,
   InitAction.cloneRepo git.url git.remote 1 true gh.userName gh.token]
    ++ (if clonedBranches.contains branchName then [] else [InitAction.createBranch branchName])
    ++ [InitAction.setConfig "user.name" gh.userName,
        InitAction.setConfig "user.email" gh.email]

/-- Claim C6 reads: when no branch name is supplied, the branch used is
the repository's default branch.  The default branch is a property of
the remote repository, a free parameter here; the code consults only
its own literal fallback. -/
def claimSixDefaultBranch : Prop :=
  ∀ (gh : GithubInfo) (defaultBranch : String),
    gh.branch = none → initRepoBranch gh = defaultBranch

/-! SiteService.loadTheme (src/unnamed/part_005). -/

/-- DEFAULT_THEME_NAME.  Modelled from the spec: the constant lives in
the absent model file Theme.ts; the spec only calls it the designated
default (fallback) theme.  Its value is irrelevant to the claims. -/
def DEFAULT_THEME_NAME : String := "default"

/-- The site record as far as loadTheme touches it: the per-theme
custom field values (spec section 3; the full Site record carries more
members, never read by loadTheme). -/
structure Site where
  themeName : String
  custom : List (String × Vars) := []
deriving DecidableEq, Repr

/-- The mutable state of SiteService: the loaded site, the active theme
configuration, and the errors reported to the user so far (through
ExceptionService.reportError). -/
structure SiteServiceState where
  site : Option Site
  themeConfig : Option Theme
  reported : List String := []
deriving Repr

/-- The plugin data repository as loadTheme consumes it: getTheme
either yields a theme or fails (fetch or parse error). -/
structure ThemeRepo where
  getTheme : String → Except String Theme

/-- The custom-entry guard inside loadTheme: site.custom[themeName] is
created (empty) when absent. -/
def ensureCustom (s : Site) (themeName : String) : Site :=
  if (List.lookup themeName s.custom).isSome then s
  else { s with custom := s.custom ++ [(themeName, [])] }

/-- SiteService.loadTheme(themeName): fails outright when the site is
not loaded; on a successful fetch installs the theme and guards the
custom entry; on a failed fetch keeps the current theme when one is
active (JS truthiness short-circuit) or fetches the default theme when
none is, then reports the error.  When no theme is active and the
default fetch itself fails, that second error propagates out of the
call before reportError runs. -/
def loadTheme (repo : ThemeRepo) (st : SiteServiceState) (themeName : String) :
    Except String SiteServiceState :=
  match st.site with
  | none => Except.error "site is not ready when load theme"
  | some site =>
    match repo.getTheme themeName with
    | Except.ok t =>
      Except.ok { st with themeConfig := some t, site := some (ensureCustom site themeName) }
    | Except.error e =>
      match st.themeConfig with
      | some cur =>
        Except.ok { st with themeConfig := some cur, reported := st.reported ++ [e] }
      | none =>
        match repo.getTheme DEFAULT_THEME_NAME with
        | Except.ok d =>
          Except.ok { st with themeConfig := some d, reported := st.reported ++ [e] }
        | Except.error e2 => Except.error e2

/-- A repository whose every fetch fails (network down, or every theme
bundle unparsable). -/
def failingRepo : ThemeRepo := ⟨fun _ => Except.error "network"⟩

/-- A repository that fails for every theme except the default one. -/
def fallbackRepo : ThemeRepo :=
  ⟨fun n => if n = DEFAULT_THEME_NAME then Except.ok { name := DEFAULT_THEME_NAME }
            else Except.error "boom"⟩

/-- A service state with the site loaded and no theme ever active. -/
def freshState : SiteServiceState := { site := some { themeName := "a" }, themeConfig := none }

/-- Claim C3 reads: whenever the fetch of the requested theme fails,
the call still succeeds, any previously active theme stays, the error
is reported, and with no previously active theme the default theme is
installed as fallback. -/
def claimThreeRecovery : Prop :=
  ∀ (repo : ThemeRepo) (st : SiteServiceState) (s : Site) (themeName e : String),
    st.site = some s → repo.getTheme themeName = Except.error e →
    ∃ st', loadTheme repo st themeName = Except.ok st'
      ∧ (∀ t, st.themeConfig = some t → st'.themeConfig = some t)
      ∧ st'.reported = st.reported ++ [e]
      ∧ (st.themeConfig = none →
          ∃ d, repo.getTheme DEFAULT_THEME_NAME = Except.ok d ∧ st'.themeConfig = some d)

/-- Claim C4 reads, for its index conjunct: no theme ever makes the
index page's field list contain a field named url. -/
def claimFourIndexNoUrl : Prop :=
  ∀ (themeConfig : Theme) (persisted : Vars),
    ∀ f ∈ (mkPage INDEX_PAGE_NAME persisted themeConfig).fields, f.name ≠ "url"

/-- A theme that itself declares a field named url for the index
page. -/
def urlDeclaringTheme : Theme := { name := "t", pages := [("index", [{ name := "url" }])] }

/-- A theme declaring a markdown field (body) for an about page and a
plain body field for the index page; used to instantiate theorems on
concrete inputs. -/
def mdTheme : Theme :=
  { name := "m"
    pages := [("about", [{ name := "body", inputType := some "markdown" }]),
              ("index", [{ name := "body" }])] }

/-! Association-list lemmas for the JS object semantics. -/

theorem Vars.get_set (o : Vars) (k key : String) (v : JSValue) :
    Vars.get (Vars.set o k v) key = if k = key then some v else Vars.get o key := by
  induction o with
  | nil => simp only [Vars.set, Vars.get]
  | cons kv rest ih =>
    obtain ⟨k', v'⟩ := kv
    by_cases h : k' = k
    · subst h
      simp only [Vars.set, if_pos rfl, Vars.get]
      by_cases hk : k' = key <;> simp [hk]
    · simp only [Vars.set, if_neg h, Vars.get, ih]
      by_cases hk : k' = key
      · subst hk
        have hne : ¬k = k' := fun hh => h hh.symm
        simp [hne]
      · simp [hk]

theorem Vars.get_append (a b : Vars) (k : String) :
    Vars.get (a ++ b) k = (Vars.get a k).or (Vars.get b k) := by
  induction a with
  | nil => simp [Vars.get]
  | cons kv rest ih =>
    obtain ⟨k', v'⟩ := kv
    simp only [List.cons_append, Vars.get, ih]
    by_cases h : k' = k <;> simp [h, ih]

theorem Vars.assign_cons (o : Vars) (kv : String × JSValue) (rest : Vars) :
    Vars.assign o (kv :: rest) = Vars.assign (Vars.set o kv.1 kv.2) rest := rfl

theorem Vars.get_assign (o v : Vars) (k : String) :
    Vars.get (Vars.assign o v) k = (Vars.get v.reverse k).or (Vars.get o k) := by
  induction v generalizing o with
  | nil => simp [Vars.assign, Vars.get]
  | cons kv rest ih =>
    obtain ⟨k₁, v₁⟩ := kv
    rw [Vars.assign_cons, ih, List.reverse_cons, Vars.get_append, Vars.get_set]
    by_cases h : k₁ = k <;>
      cases hx : Vars.get rest.reverse k <;> simp [h, hx, Vars.get]

theorem Vars.get_mapValues (f : String → JSValue → JSValue) (o : Vars) (k : String) :
    Vars.get (Vars.mapValues f o) k = (Vars.get o k).map (f k) := by
  induction o with
  | nil => simp [Vars.mapValues, Vars.get]
  | cons kv rest ih =>
    obtain ⟨k', v'⟩ := kv
    simp only [Vars.mapValues, Vars.get, ih]
    by_cases h : k' = k <;> simp [h]

theorem Vars.mapValues_append (f : String → JSValue → JSValue) (a b : Vars) :
    Vars.mapValues f (a ++ b) = Vars.mapValues f a ++ Vars.mapValues f b := by
  induction a with
  | nil => rfl
  | cons kv rest ih =>
    obtain ⟨k', v'⟩ := kv
    simp [Vars.mapValues, ih]

theorem Vars.mapValues_reverse (f : String → JSValue → JSValue) (o : Vars) :
    Vars.mapValues f o.reverse = (Vars.mapValues f o).reverse := by
  induction o with
  | nil => rfl
  | cons kv rest ih =>
    obtain ⟨k', v'⟩ := kv
    simp [Vars.mapValues, Vars.mapValues_append, ih]

theorem Vars.get_isSome_iff (o : Vars) (k : String) :
    (Vars.get o k).isSome = true ↔ k ∈ Vars.keys o := by
  induction o with
  | nil => simp [Vars.get, Vars.keys]
  | cons kv rest ih =>
    obtain ⟨k', v'⟩ := kv
    simp only [Vars.get, Vars.keys, List.map_cons, List.mem_cons]
    by_cases h : k' = k
    · subst h; simp
    · have hne : ¬k = k' := fun hh => h hh.symm
      simp only [if_neg h, hne, false_or]
      exact ih

theorem Vars.get_reverse_isSome (o : Vars) (k : String) :
    (Vars.get o.reverse k).isSome = (Vars.get o k).isSome := by
  have h1 := Vars.get_isSome_iff o.reverse k
  have h2 := Vars.get_isSome_iff o k
  have hm : k ∈ Vars.keys o.reverse ↔ k ∈ Vars.keys o := by
    simp [Vars.keys, List.map_reverse]
  cases hb : (Vars.get o.reverse k).isSome <;> cases hb2 : (Vars.get o k).isSome <;>
    simp_all

theorem Vars.get_reverse_of_nodup (o : Vars) (k : String) (h : (Vars.keys o).Nodup) :
    Vars.get o.reverse k = Vars.get o k := by
  induction o with
  | nil => rfl
  | cons kv rest ih =>
    obtain ⟨k', v'⟩ := kv
    simp only [Vars.keys, List.map_cons, List.nodup_cons] at h
    obtain ⟨hk', hrest⟩ := h
    rw [List.reverse_cons, Vars.get_append]
    by_cases hkk : k' = k
    · subst hkk
      have hnone : Vars.get rest k' = none := by
        cases hg : Vars.get rest k' with
        | none => rfl
        | some w =>
          exact absurd ((Vars.get_isSome_iff rest k').1 (by simp [hg])) hk'
      have hrevnone : Vars.get rest.reverse k' = none := by
        cases hg2 : Vars.get rest.reverse k' with
        | none => rfl
        | some w =>
          have hs := Vars.get_reverse_isSome rest k'
          rw [hg2, hnone] at hs
          simp at hs
      simp [hrevnone, Vars.get]
    · have hne : ¬k' = k := hkk
      simp [Vars.get, hne, ih hrest]

theorem Vars.keys_set (o : Vars) (k : String) (v : JSValue) :
    Vars.keys (Vars.set o k v)
      = if k ∈ Vars.keys o then Vars.keys o else Vars.keys o ++ [k] := by
  induction o with
  | nil => simp [Vars.set, Vars.keys]
  | cons kv rest ih =>
    obtain ⟨k', v'⟩ := kv
    by_cases h : k' = k
    · subst h
      simp [Vars.set, Vars.keys]
    · have hne : ¬k = k' := fun hh => h hh.symm
      simp only [Vars.set, if_neg h, Vars.keys, List.map_cons, List.mem_cons, hne,
        false_or] at ih ⊢
      rw [ih]
      by_cases hm : k ∈ List.map Prod.fst rest <;> simp [hm]

theorem Vars.keys_set_nodup (o : Vars) (k : String) (v : JSValue)
    (h : (Vars.keys o).Nodup) : (Vars.keys (Vars.set o k v)).Nodup := by
  rw [Vars.keys_set]
  by_cases hm : k ∈ Vars.keys o
  · simpa [hm] using h
  · simp [hm, List.nodup_append, h]

theorem Vars.assign_keys_nodup (o v : Vars) (h : (Vars.keys o).Nodup) :
    (Vars.keys (Vars.assign o v)).Nodup := by
  induction v generalizing o with
  | nil => exact h
  | cons kv rest ih =>
    rw [Vars.assign_cons]
    exact ih _ (Vars.keys_set_nodup o kv.1 kv.2 h)

theorem initVars_get_aux (fields : List Field) (acc : Vars) (k : String) :
    Vars.get (fields.foldl (fun acc f => Vars.set acc f.name JSValue.null) acc) k
      = if k ∈ fields.map Field.name then some JSValue.null else Vars.get acc k := by
  induction fields generalizing acc with
  | nil => simp
  | cons f rest ih =>
    simp only [List.foldl_cons, List.map_cons, List.mem_cons, ih, Vars.get_set]
    by_cases h1 : k ∈ List.map Field.name rest
    · simp [h1]
    · by_cases h2 : f.name = k
      · simp [h1, h2]
      · have hne : ¬k = f.name := fun hh => h2 hh.symm
        simp [h1, h2, hne]

theorem initVars_get (fields : List Field) (k : String) :
    Vars.get (initVars fields) k
      = if k ∈ fields.map Field.name then some JSValue.null else none := by
  simpa [Vars.get] using initVars_get_aux fields [] k

theorem initVars_keys_nodup_aux (fields : List Field) (acc : Vars)
    (h : (Vars.keys acc).Nodup) :
    (Vars.keys (fields.foldl (fun acc f => Vars.set acc f.name JSValue.null) acc)).Nodup := by
  induction fields generalizing acc with
  | nil => exact h
  | cons f rest ih => exact ih _ (Vars.keys_set_nodup acc f.name JSValue.null h)

theorem initVars_keys_nodup (fields : List Field) : (Vars.keys (initVars fields)).Nodup :=
  initVars_keys_nodup_aux fields [] (by simp [Vars.keys])

theorem mkPage_fieldVars_keys_nodup (name : String) (persisted : Vars)
    (themeConfig : Theme) :
    (Vars.keys (mkPage name persisted themeConfig).fieldVars).Nodup :=
  Vars.assign_keys_nodup _ _ (initVars_keys_nodup _)

/-! Markdown codec lemmas. -/

theorem isPrefixOf_append_self (p t : List Char) : p.isPrefixOf (p ++ t) = true := by
  induction p with
  | nil => simp [List.isPrefixOf]
  | cons c rest ih => simp [List.isPrefixOf, ih]

theorem trim_marker_append (s : String) :
    trimMarkdownMarker (markdownMarker ++ s) = s := by
  unfold trimMarkdownMarker
  rw [String.data_append, if_pos (isPrefixOf_append_self _ _), List.drop_left]

theorem decode_encode (mdNames : List String) (k : String) (v : JSValue) :
    decodeValue mdNames k (encodeValue mdNames k v) = v := by
  unfold decodeValue encodeValue
  by_cases h : k ∈ mdNames
  · simp only [if_pos h]
    cases v <;> simp [trim_marker_append]
  · simp [h]

/-! Page claim theorems. -/

/-- C2: decoding the markdown encoding of any string gives the string
back; applying setValues to the outputValues projection leaves every
field value of a page unchanged (in particular every markdown-typed
string field); and a non-string value meets both markdown
transformations untouched - both are total functions, which embeds
"does not throw".  The Nodup hypothesis states that the page's field
object holds each key once, as every JavaScript object does (and as
mkPage_fieldVars_keys_nodup proves for every constructed page). -/
theorem markdown_roundtrip_C2 :
    (∀ v : String, trimMarkdownMarker (markdownMarker ++ v) = v)
    ∧ (∀ (p : Page) (k : String), (Vars.keys p.fieldVars).Nodup →
        Vars.get (p.setValues p.outputValues).fieldVars k = Vars.get p.fieldVars k)
    ∧ (∀ (mdNames : List String) (k : String) (v : JSValue), v.isStr = false →
        decodeValue mdNames k v = v ∧ encodeValue mdNames k v = v) := by
  refine ⟨trim_marker_append, ?_, ?_⟩
  · intro p k hnd
    show Vars.get (Vars.assign p.fieldVars
      (Vars.mapValues (decodeValue p.markdownFieldNames) (Page.outputValues p))) k
      = Vars.get p.fieldVars k
    rw [Vars.get_assign]
    unfold Page.outputValues
    rw [← Vars.mapValues_reverse, ← Vars.mapValues_reverse, Vars.get_mapValues,
        Vars.get_mapValues, Vars.get_reverse_of_nodup _ _ hnd]
    cases hg : Vars.get p.fieldVars k with
    | none => simp
    | some v => simp [decode_encode]
  · intro mdNames k v hv
    constructor
    · by_cases h : k ∈ mdNames
      · cases v <;> simp_all [decodeValue, JSValue.isStr]
      · simp [decodeValue, h]
    · by_cases h : k ∈ mdNames
      · cases v <;> simp_all [encodeValue, JSValue.isStr]
      · simp [encodeValue, h]

/-- Witness for C2 at concrete inputs: the string hello round-trips, a
constructed page with a markdown body field is unchanged by
setValues-of-outputValues, and a number passes through both
transformations. -/
theorem markdown_roundtrip_C2_witness :
    trimMarkdownMarker (markdownMarker ++ "hello") = "hello"
    ∧ Vars.get ((mkPage "about" [("body", JSValue.str "text")] mdTheme).setValues
        ((mkPage "about" [("body", JSValue.str "text")] mdTheme).outputValues)).fieldVars "body"
      = Vars.get (mkPage "about" [("body", JSValue.str "text")] mdTheme).fieldVars "body"
    ∧ (decodeValue ["body"] "body" (JSValue.num 7) = JSValue.num 7
        ∧ encodeValue ["body"] "body" (JSValue.num 7) = JSValue.num 7) :=
  ⟨markdown_roundtrip_C2.1 "hello",
   markdown_roundtrip_C2.2.1 (mkPage "about" [("body", JSValue.str "text")] mdTheme)
     "body" (by decide),
   markdown_roundtrip_C2.2.2 ["body"] "body" (JSValue.num 7) (by decide)⟩

/-- C4 as frozen is refuted: a theme may itself declare a field named
url for the index page, and the constructor concatenates theme-declared
fields in unconditionally, so the index page's field list then does
contain a url field. -/
theorem page_fields_C4_counterexample : ¬claimFourIndexNoUrl := by
  intro h
  exact h urlDeclaringTheme [] { name := "url" } (by decide) rfl

/-- C4 amended: the field list is the fixed concatenation
[url field unless index] ++ [predefined fields] ++ [theme fields]; the
index page's field list contains no url field provided the theme
declares none for the index page (the unamended claim fails only on
themes that do, page_fields_C4_counterexample); the article page's
field list always contains the dateFormat field with default value
YYYY-MM-DD HH:mm. -/
theorem page_fields_C4_amended (themeConfig : Theme) (persisted : Vars) (name : String) :
    (mkPage name persisted themeConfig).fields
      = (if name = INDEX_PAGE_NAME then [] else [urlField name])
          ++ ((PREDEFINED_FIELDS name).getD [])
          ++ ((List.lookup name themeConfig.pages).getD [])
    ∧ ((∀ f ∈ (List.lookup INDEX_PAGE_NAME themeConfig.pages).getD [], f.name ≠ "url") →
        ∀ f ∈ (mkPage INDEX_PAGE_NAME persisted themeConfig).fields, f.name ≠ "url")
    ∧ (∃ f ∈ (mkPage ARTICLE_PAGE_NAME persisted themeConfig).fields,
        f.name = "dateFormat" ∧ f.defaultValue = some (JSValue.str "YYYY-MM-DD HH:mm")) := by
  refine ⟨rfl, ?_, ?_⟩
  · intro hthm f hf
    have hfields : (mkPage INDEX_PAGE_NAME persisted themeConfig).fields
        = (List.lookup INDEX_PAGE_NAME themeConfig.pages).getD [] := by
      show Page.fieldsFor INDEX_PAGE_NAME themeConfig = _
      unfold Page.fieldsFor
      rw [if_pos rfl]
      have hpre : PREDEFINED_FIELDS INDEX_PAGE_NAME = none := by decide
      rw [hpre]
      simp
    rw [hfields] at hf
    exact hthm f hf
  · refine ⟨dateFormatField, ?_, rfl, rfl⟩
    show dateFormatField ∈ Page.fieldsFor ARTICLE_PAGE_NAME themeConfig
    unfold Page.fieldsFor
    have hpre : PREDEFINED_FIELDS ARTICLE_PAGE_NAME = some [dateFormatField] := by
      unfold PREDEFINED_FIELDS
      rw [if_pos rfl]
    rw [hpre, if_neg (by decide : ¬ARTICLE_PAGE_NAME = INDEX_PAGE_NAME)]
    simp

/-- Witness for C4 amended at a concrete theme: the concatenation
formula, the index conclusion applied to the one declared index field
(body), and the article dateFormat field. -/
theorem page_fields_C4_amended_witness :
    (mkPage "index" [] mdTheme).fields
      = (if "index" = INDEX_PAGE_NAME then [] else [urlField "index"])
          ++ ((PREDEFINED_FIELDS "index").getD [])
          ++ ((List.lookup "index" mdTheme.pages).getD [])
    ∧ ({ name := "body" } : Field).name ≠ "url"
    ∧ (∃ f ∈ (mkPage ARTICLE_PAGE_NAME [] mdTheme).fields,
        f.name = "dateFormat" ∧ f.defaultValue = some (JSValue.str "YYYY-MM-DD HH:mm")) :=
  ⟨(page_fields_C4_amended mdTheme [] "index").1,
   (page_fields_C4_amended mdTheme [] "index").2.1 (by decide) { name := "body" } (by decide),
   (page_fields_C4_amended mdTheme [] "index").2.2⟩

/-- C7: the Page constructor is a total function of its three arguments
(the embedding of "never throws on malformed persisted data"), and any
persisted key - declared by a field or not - is retained in fieldVars
with its value, markdown-decoded exactly when the key names a
markdown-typed field and the value is a string (decodeValue).  The
Nodup hypothesis says the persisted object holds each key once, as
every JavaScript object does. -/
theorem page_construct_retains_C7 (name : String) (persisted : Vars)
    (themeConfig : Theme) (k : String) (v : JSValue)
    (hnd : (Vars.keys persisted).Nodup) (hget : Vars.get persisted k = some v) :
    Vars.get (mkPage name persisted themeConfig).fieldVars k
      = some (decodeValue (getMarkdownFieldNames (Page.fieldsFor name themeConfig)) k v) := by
  show Vars.get (Vars.assign (initVars (Page.fieldsFor name themeConfig))
      (Vars.mapValues
        (decodeValue (getMarkdownFieldNames (Page.fieldsFor name themeConfig)))
        persisted)) k
    = some (decodeValue (getMarkdownFieldNames (Page.fieldsFor name themeConfig)) k v)
  rw [Vars.get_assign, ← Vars.mapValues_reverse, Vars.get_mapValues,
      Vars.get_reverse_of_nodup _ _ hnd, hget]
  rfl

/-- Witness for C7: a key declared by no field of the theme (junk) is
retained with its value. -/
theorem page_construct_retains_C7_witness :
    Vars.get (mkPage "index" [("junk", JSValue.bool true)] mdTheme).fieldVars "junk"
      = some (decodeValue (getMarkdownFieldNames (Page.fieldsFor "index" mdTheme)) "junk"
          (JSValue.bool true)) :=
  page_construct_retains_C7 "index" [("junk", JSValue.bool true)] mdTheme "junk"
    (JSValue.bool true) (by decide) (by decide)

theorem setValues_keeps_key (p : Page) (vs : Vars) (k : String)
    (h : (Vars.get p.fieldVars k).isSome = true) :
    (Vars.get (p.setValues vs).fieldVars k).isSome = true := by
  show (Vars.get (Vars.assign p.fieldVars
    (Vars.mapValues (decodeValue p.markdownFieldNames) vs)) k).isSome = true
  rw [Vars.get_assign]
  cases hx : Vars.get (Vars.mapValues (decodeValue p.markdownFieldNames) vs).reverse k with
  | none => simpa [hx] using h
  | some w => simp

theorem applyCalls_keeps_key (calls : List Vars) (p : Page) (k : String)
    (h : (Vars.get p.fieldVars k).isSome = true) :
    (Vars.get (applyCalls calls p).fieldVars k).isSome = true := by
  induction calls generalizing p with
  | nil => exact h
  | cons c rest ih => exact ih (p.setValues c) (setValues_keeps_key p c k h)

theorem mkPage_declared_isSome (name : String) (persisted : Vars) (themeConfig : Theme)
    (f : Field) (hf : f ∈ Page.fieldsFor name themeConfig) :
    (Vars.get (mkPage name persisted themeConfig).fieldVars f.name).isSome = true := by
  show (Vars.get (Vars.assign (initVars (Page.fieldsFor name themeConfig))
    (Vars.mapValues
      (decodeValue (getMarkdownFieldNames (Page.fieldsFor name themeConfig)))
      persisted)) f.name).isSome = true
  rw [Vars.get_assign, initVars_get, if_pos (List.mem_map_of_mem Field.name hf)]
  cases hx : Vars.get (Vars.mapValues
      (decodeValue (getMarkdownFieldNames (Page.fieldsFor name themeConfig)))
      persisted).reverse f.name <;> simp

/-- C10: after construction every declared field name is a key of
fieldVars, initialised to null when the persisted data lacks it;
setValues only adds or overwrites keys, never removing one; hence every
declared field name is still a key after any sequence of setValues
calls. -/
theorem declared_keys_persist_C10 (name : String) (persisted : Vars)
    (themeConfig : Theme) (calls : List Vars) (f : Field)
    (hf : f ∈ Page.fieldsFor name themeConfig) :
    (Vars.get persisted f.name = none →
      Vars.get (mkPage name persisted themeConfig).fieldVars f.name = some JSValue.null)
    ∧ (∀ (q : Page) (vs : Vars) (k : String),
        (Vars.get q.fieldVars k).isSome = true →
        (Vars.get (q.setValues vs).fieldVars k).isSome = true)
    ∧ (Vars.get (applyCalls calls
        (mkPage name persisted themeConfig)).fieldVars f.name).isSome = true := by
  refine ⟨?_, setValues_keeps_key,
    applyCalls_keeps_key calls _ f.name (mkPage_declared_isSome name persisted themeConfig f hf)⟩
  intro hnone
  show Vars.get (Vars.assign (initVars (Page.fieldsFor name themeConfig))
      (Vars.mapValues
        (decodeValue (getMarkdownFieldNames (Page.fieldsFor name themeConfig)))
        persisted)) f.name = some JSValue.null
  rw [Vars.get_assign, ← Vars.mapValues_reverse, Vars.get_mapValues]
  have hrev : Vars.get persisted.reverse f.name = none := by
    cases hg : Vars.get persisted.reverse f.name with
    | none => rfl
    | some w =>
      have hs := Vars.get_reverse_isSome persisted f.name
      rw [hg, hnone] at hs
      simp at hs
  rw [hrev, initVars_get, if_pos (List.mem_map_of_mem Field.name hf)]
  rfl

/-- Witness for C10 on the article page's predefined dateFormat field:
it starts at null and is still a key after two setValues calls. -/
theorem declared_keys_persist_C10_witness :
    (Vars.get ([] : Vars) dateFormatField.name = none →
      Vars.get (mkPage "article" [] mdTheme).fieldVars dateFormatField.name
        = some JSValue.null)
    ∧ (Vars.get (applyCalls [[("x", JSValue.num 1)], [("dateFormat", JSValue.null)]]
        (mkPage "article" [] mdTheme)).fieldVars dateFormatField.name).isSome = true :=
  ⟨(declared_keys_persist_C10 "article" [] mdTheme
      [[("x", JSValue.num 1)], [("dateFormat", JSValue.null)]] dateFormatField
      (by decide)).1,
   (declared_keys_persist_C10 "article" [] mdTheme
      [[("x", JSValue.num 1)], [("dateFormat", JSValue.null)]] dateFormatField
      (by decide)).2.2⟩

/-! Article URL claim theorems (C9 here; C5 follows the Nat.repr
development further below). -/

/-- C9: isValidUrl(newUrl, noteId) is false exactly when some article
with a different noteId holds the url; consequently, when every article
holding the url has the given noteId (in particular when only the
article being saved holds its own unchanged url), validation passes. -/
theorem isValidUrl_iff_C9 (articles : List Article) (newUrl : String)
    (noteId : Option String) :
    (isValidUrl articles newUrl noteId = false
      ↔ ∃ a ∈ articles, some a.noteId ≠ noteId ∧ a.url = newUrl)
    ∧ (∀ nid : String, (∀ a ∈ articles, a.url = newUrl → a.noteId = nid) →
        isValidUrl articles newUrl (some nid) = true) := by
  constructor
  · simp [isValidUrl, List.any_eq_true]
  · intro nid h
    simp only [isValidUrl, List.any_eq_true, decide_eq_true_eq, ne_eq,
      Option.some.injEq, Bool.and_eq_true, not_exists, not_and,
      Bool.not_eq_true', List.any_eq_false]
    intro a ha hn hu
    exact hn (h a ha hu)

/-- Witness for C9: saving the sole article of the collection while
keeping its url validates. -/
theorem isValidUrl_iff_C9_witness : isValidUrl cexArticles "a" (some "n1") = true :=
  (isValidUrl_iff_C9 cexArticles "a" (some "n1")).2 "n1" (by decide)

/-! Git worker claim theorems. -/

/-- C1: under the publish contract (the caller materialized exactly the
passed file set on the working tree, and the cloned index holds only
files of the cloned branch commit), the filepaths passed to git remove
are exactly the branch's previously tracked files absent from the new
file set (paths taken relative to the working directory), no file of
the new set is removed, and the branch's tracked listing after the
commit consists exactly of the new file set. -/
theorem publish_diffdelete_C1 (dir branchRef : String) (files : List String)
    (st : RepoState)
    (hwt : st.workingTree = files.map (stripDir dir))
    (hidx : ∀ p ∈ st.index, p ∈ st.branchFiles) :
    (publishGit dir branchRef files st).2.1
      = st.branchFiles.filter (fun f => f ∉ files.map (stripDir dir))
    ∧ (∀ p ∈ files.map (stripDir dir), p ∉ (publishGit dir branchRef files st).2.1)
    ∧ (∀ p ∈ (publishGit dir branchRef files st).1.branchFiles,
        p ∈ files.map (stripDir dir))
    ∧ (∀ p ∈ files.map (stripDir dir),
        p ∈ (publishGit dir branchRef files st).1.branchFiles) := by
  refine ⟨rfl, ?_, ?_, ?_⟩
  · intro p hp
    simp only [publishGit, List.mem_filter, decide_eq_true_eq, not_and]
    intro _
    simp [hp]
  · intro p hp
    simp only [publishGit, List.mem_filter, List.mem_append, decide_eq_true_eq] at hp
    obtain ⟨hp1, hp2⟩ := hp
    rcases hp1 with hin | ⟨hwtmem, -⟩
    · by_contra hnot
      exact hp2 ⟨hidx p hin, fun hmem => hnot hmem⟩
    · rw [hwt] at hwtmem
      exact hwtmem
  · intro p hp
    simp only [publishGit, List.mem_filter, List.mem_append, decide_eq_true_eq]
    constructor
    · by_cases hin : p ∈ st.index
      · exact Or.inl hin
      · exact Or.inr ⟨by rw [hwt]; exact hp, hin⟩
    · intro hcontra
      exact absurd hp hcontra.2

/-- Witness for C1, the spec's own example: previously published a, b,
c; newly rendered a, c, dd under working directory d.  b alone is
removed and the final listing is exactly a, c, dd. -/
theorem publish_diffdelete_C1_witness :
    (publishGit "d" "master" ["d/a", "d/c", "d/dd"]
        ⟨["a", "c", "dd"], ["a", "b", "c"], ["a", "b", "c"]⟩).2.1 = ["b"]
    ∧ "a" ∉ (publishGit "d" "master" ["d/a", "d/c", "d/dd"]
        ⟨["a", "c", "dd"], ["a", "b", "c"], ["a", "b", "c"]⟩).2.1
    ∧ "b" ∉ (publishGit "d" "master" ["d/a", "d/c", "d/dd"]
        ⟨["a", "c", "dd"], ["a", "b", "c"], ["a", "b", "c"]⟩).1.branchFiles
    ∧ "dd" ∈ (publishGit "d" "master" ["d/a", "d/c", "d/dd"]
        ⟨["a", "c", "dd"], ["a", "b", "c"], ["a", "b", "c"]⟩).1.branchFiles := by
  have h := publish_diffdelete_C1 "d" "master" ["d/a", "d/c", "d/dd"]
    ⟨["a", "c", "dd"], ["a", "b", "c"], ["a", "b", "c"]⟩ (by decide) (by decide)
  refine ⟨by rw [h.1]; decide, h.2.1 "a" (by decide), ?_, h.2.2.2 "dd" (by decide)⟩
  intro hb
  exact absurd (h.2.2.1 "b" hb) (by decide)

/-- C8: the first step of every publish execution is the fixed 3000 ms
delay, and every repository-affecting step (staging, branch listing,
diff-delete removals, commit, push) sits at a strictly later position
of the trace. -/
theorem publish_delay_first_C8 (dir branchRef : String) (files : List String)
    (st : RepoState) :
    ((publishGit dir branchRef files st).2.2).head? = some (PubAction.delay 3000)
    ∧ ∀ (i : Nat) (a : PubAction),
        ((publishGit dir branchRef files st).2.2).get? i = some a →
        repoAffecting a = true → 0 < i := by
  constructor
  · rfl
  · intro i a hget hrepo
    cases i with
    | zero =>
      have h0 : ((publishGit dir branchRef files st).2.2).get? 0
          = some (PubAction.delay 3000) := rfl
      rw [h0] at hget
      cases hget
      simp [repoAffecting] at hrepo
    | succ n => exact Nat.succ_pos n

/-- Witness for C8: on a concrete publish the head of the trace is the
delay and the staging step at position 1 is indeed later than it. -/
theorem publish_delay_first_C8_witness :
    ((publishGit "d" "master" ["d/a"] ⟨["a"], [], []⟩).2.2).head?
      = some (PubAction.delay 3000)
    ∧ 0 < 1 :=
  ⟨(publish_delay_first_C8 "d" "master" ["d/a"] ⟨["a"], [], []⟩).1,
   (publish_delay_first_C8 "d" "master" ["d/a"] ⟨["a"], [], []⟩).2 1 PubAction.addAll
     (by decide) (by decide)⟩

/-- C6 as frozen is refuted in its default-branch conjunct: against a
remote repository whose default branch is main, initRepo invoked with
no branch supplied works with the literal master, not the repository's
default branch. -/
theorem init_repo_C6_counterexample : ¬claimSixDefaultBranch := by
  intro h
  have hm := h { userName := "u", email := "e", token := "t", branch := none } "main" rfl
  exact absurd hm (by decide)

/-- C6 amended: initRepo first empties the metadata directory and the
working directory, then clones shallow (depth 1, no checkout) with the
supplied credentials, creates the target branch exactly when the cloned
repository lacks it, and ends by setting user.name and user.email; when
no branch name is supplied the branch used is the literal master (the
unamended claim said the repository's default branch,
init_repo_C6_counterexample). -/
theorem init_repo_C6_amended (gh : GithubInfo) (git : GitInfo)
    (clonedBranches : List String) :
    (initRepo gh git clonedBranches).take 3
      = [InitAction.emptyDir git.gitdir, InitAction.emptyDir git.dir,
         InitAction.cloneRepo git.url git.remote 1 true gh.userName gh.token]
    ∧ (InitAction.createBranch (initRepoBranch gh) ∈ initRepo gh git clonedBranches
        ↔ clonedBranches.contains (initRepoBranch gh) = false)
    ∧ (initRepo gh git clonedBranches).drop
        ((initRepo gh git clonedBranches).length - 2)
      = [InitAction.setConfig "user.name" gh.userName,
         InitAction.setConfig "user.email" gh.email]
    ∧ (gh.branch = none → initRepoBranch gh = "master") := by
  unfold initRepo
  by_cases hb : clonedBranches.contains (initRepoBranch gh) <;>
    simp [hb, initRepoBranch] <;>
    intro h <;> simp [h]

/-- Witness for C6 amended: a remote whose only branch is main and a
request carrying no branch name; the branch worked with is master and
it is created since the clone lacks it. -/
theorem init_repo_C6_amended_witness :
    (initRepo { userName := "u", email := "e", token := "t", branch := none }
        ⟨"dir", "git", "https://r", "origin"⟩ ["main"]).take 3
      = [InitAction.emptyDir "git", InitAction.emptyDir "dir",
         InitAction.cloneRepo "https://r" "origin" 1 true "u" "t"]
    ∧ initRepoBranch { userName := "u", email := "e", token := "t", branch := none }
        = "master" :=
  ⟨(init_repo_C6_amended { userName := "u", email := "e", token := "t", branch := none }
      ⟨"dir", "git", "https://r", "origin"⟩ ["main"]).1,
   (init_repo_C6_amended { userName := "u", email := "e", token := "t", branch := none }
      ⟨"dir", "git", "https://r", "origin"⟩ ["main"]).2.2.2 rfl⟩

/-! SiteService claim theorems. -/

/-- C3 as frozen is refuted: when no theme was ever active and the
fetch of the fallback default theme itself fails, loadTheme propagates
the error instead of reporting it, and no default theme is
installed. -/
theorem load_theme_C3_counterexample : ¬claimThreeRecovery := by
  intro h
  obtain ⟨st', hok, -⟩ :=
    h failingRepo freshState { themeName := "a" } "a" "network" rfl rfl
  have hne : loadTheme failingRepo freshState "a" = Except.error "network" := rfl
  rw [hne] at hok
  cases hok

/-- C3 amended: when the fetch of the requested theme fails and a theme
was previously active, loadTheme succeeds, keeps that theme untouched
and appends the error to the reported list; when none was active it
installs the designated default theme instead - provided the default
theme's own fetch succeeds (without that proviso the claim fails,
load_theme_C3_counterexample). -/
theorem load_theme_C3_amended (repo : ThemeRepo) (st : SiteServiceState) (s : Site)
    (themeName e : String)
    (hsite : st.site = some s) (hfail : repo.getTheme themeName = Except.error e) :
    (∀ t, st.themeConfig = some t →
      loadTheme repo st themeName
        = Except.ok { st with themeConfig := some t, reported := st.reported ++ [e] })
    ∧ (∀ d, st.themeConfig = none → repo.getTheme DEFAULT_THEME_NAME = Except.ok d →
        loadTheme repo st themeName
          = Except.ok { st with themeConfig := some d, reported := st.reported ++ [e] }) := by
  constructor
  · intro t ht
    simp [loadTheme, hsite, hfail, ht]
  · intro d hnone hdef
    simp [loadTheme, hsite, hfail, hnone, hdef]

/-- Witness for C3 amended, on a repository failing for everything but
the default theme: a state with an active theme keeps it and reports,
a state with none installs the default theme and reports. -/
theorem load_theme_C3_amended_witness :
    loadTheme fallbackRepo
        { site := some { themeName := "a" }, themeConfig := some { name := "t0" } } "x"
      = Except.ok (⟨some ⟨"a", []⟩, some ⟨"t0", [], []⟩, ["boom"]⟩ : SiteServiceState)
    ∧ loadTheme fallbackRepo freshState "x"
      = Except.ok
          (⟨some ⟨"a", []⟩, some ⟨DEFAULT_THEME_NAME, [], []⟩, ["boom"]⟩ : SiteServiceState) :=
  ⟨(load_theme_C3_amended fallbackRepo
      { site := some { themeName := "a" }, themeConfig := some { name := "t0" } }
      { themeName := "a" } "x" "boom" rfl rfl).1 { name := "t0" } rfl,
   (load_theme_C3_amended fallbackRepo freshState { themeName := "a" } "x" "boom"
      rfl rfl).2 { name := DEFAULT_THEME_NAME } rfl rfl⟩

/-! Decimal rendering: Nat.repr is injective.  Needed to know the url
candidates base-1, base-2, ... are pairwise distinct, which bounds the
getValidUrl loop. -/

theorem toDigitsCore_acc (b : Nat) :
    ∀ (fuel n : Nat) (ds : List Char),
      Nat.toDigitsCore b fuel n ds = Nat.toDigitsCore b fuel n [] ++ ds := by
  intro fuel
  induction fuel with
  | zero => intro n ds; rfl
  | succ f ih =>
    intro n ds
    simp only [Nat.toDigitsCore]
    by_cases h : n / b = 0
    · simp [h]
    · rw [if_neg h, if_neg h, ih (n / b) (Nat.digitChar (n % b) :: ds),
        ih (n / b) [Nat.digitChar (n % b)]]
      simp

theorem toDigitsCore_fuel (n : Nat) :
    ∀ fuel fuel' : Nat, n < fuel → n < fuel' →
      Nat.toDigitsCore 10 fuel n [] = Nat.toDigitsCore 10 fuel' n [] := by
  induction n using Nat.strong_induction_on with
  | _ n ih =>
    intro fuel fuel' hf hf'
    cases fuel with
    | zero => omega
    | succ f =>
      cases fuel' with
      | zero => omega
      | succ f' =>
        simp only [Nat.toDigitsCore]
        by_cases h : n / 10 = 0
        · rw [if_pos h, if_pos h]
        · rw [if_neg h, if_neg h, toDigitsCore_acc, toDigitsCore_acc 10 f']
          have hn1 : 1 ≤ n := by
            by_contra hc
            push_neg at hc
            interval_cases n
            exact h rfl
          have hlt : n / 10 < n := Nat.div_lt_self hn1 (by norm_num)
          rw [ih (n / 10) hlt f f' (by omega) (by omega)]

theorem toDigits10_small (n : Nat) (h : n < 10) :
    Nat.toDigits 10 n = [Nat.digitChar n] := by
  unfold Nat.toDigits
  simp only [Nat.toDigitsCore]
  rw [if_pos (Nat.div_eq_of_lt h), Nat.mod_eq_of_lt h]

theorem toDigits10_step (n : Nat) (h : 10 ≤ n) :
    Nat.toDigits 10 n = Nat.toDigits 10 (n / 10) ++ [Nat.digitChar (n % 10)] := by
  have hne : ¬n / 10 = 0 := by
    have : 1 ≤ n / 10 := Nat.one_le_div_iff (by norm_num) |>.2 h
    omega
  unfold Nat.toDigits
  simp only [Nat.toDigitsCore]
  rw [if_neg hne, toDigitsCore_acc]
  congr 1
  have hn1 : 1 ≤ n := by omega
  exact toDigitsCore_fuel (n / 10) n (n / 10 + 1)
    (Nat.div_lt_self hn1 (by norm_num)) (Nat.lt_succ_self _)

theorem toDigits10_ne_nil (n : Nat) : Nat.toDigits 10 n ≠ [] := by
  by_cases h : n < 10
  · rw [toDigits10_small n h]
    simp
  · rw [toDigits10_step n (Nat.le_of_not_lt h)]
    simp

theorem digitChar_inj_lt : ∀ m < 10, ∀ n < 10,
    Nat.digitChar m = Nat.digitChar n → m = n := by decide

theorem toDigits10_inj (n : Nat) :
    ∀ m : Nat, Nat.toDigits 10 n = Nat.toDigits 10 m → n = m := by
  induction n using Nat.strong_induction_on with
  | _ n ih =>
    intro m h
    by_cases hn : n < 10 <;> by_cases hm : m < 10
    · rw [toDigits10_small n hn, toDigits10_small m hm] at h
      simp only [List.cons.injEq, and_true] at h
      exact digitChar_inj_lt n hn m hm h
    · rw [toDigits10_small n hn, toDigits10_step m (Nat.le_of_not_lt hm)] at h
      have hlen := congrArg List.length h
      simp at hlen
      exact absurd hlen (toDigits10_ne_nil _)
    · rw [toDigits10_step n (Nat.le_of_not_lt hn), toDigits10_small m hm] at h
      have hlen := congrArg List.length h
      simp at hlen
      exact absurd hlen (toDigits10_ne_nil _)
    · rw [toDigits10_step n (Nat.le_of_not_lt hn),
        toDigits10_step m (Nat.le_of_not_lt hm)] at h
      have hlen : (Nat.toDigits 10 (n / 10)).length
          = (Nat.toDigits 10 (m / 10)).length := by
        have := congrArg List.length h
        simp at this
        omega
      obtain ⟨h1, h2⟩ := List.append_inj h hlen
      simp only [List.cons.injEq, and_true] at h2
      have hd : n % 10 = m % 10 :=
        digitChar_inj_lt (n % 10) (Nat.mod_lt _ (by norm_num)) (m % 10)
          (Nat.mod_lt _ (by norm_num)) h2
      have hn1 : 1 ≤ n := by omega
      have hq : n / 10 = m / 10 :=
        ih (n / 10) (Nat.div_lt_self hn1 (by norm_num)) (m / 10) h1
      omega

theorem candidateUrl_inj (base : String) (i j : Nat)
    (h : candidateUrl base i = candidateUrl base j) : i = j := by
  have hdata := congrArg String.data h
  simp only [candidateUrl, String.data_append, List.append_assoc] at hdata
  have h2 := List.append_cancel_left (List.append_cancel_left hdata)
  exact toDigits10_inj i j h2

theorem candidateUrl_ne_base (base : String) (j : Nat) : candidateUrl base j ≠ base := by
  intro h
  have hlen := congrArg String.length h
  have hone : ("-" : String).length = 1 := rfl
  simp [candidateUrl, String.length_append, hone] at hlen
  omega

/-! The getValidUrl loop: enough fuel always yields a fresh url. -/

theorem isValidUrl_none_false_iff (articles : List Article) (u : String) :
    isValidUrl articles u none = false ↔ u ∈ articles.map Article.url := by
  simp only [isValidUrl, Bool.not_eq_false', List.any_eq_true, Bool.and_eq_true,
    decide_eq_true_eq, List.mem_map]
  constructor
  · rintro ⟨a, ha, -, hu⟩
    exact ⟨a, ha, hu⟩
  · rintro ⟨a, ha, hu⟩
    exact ⟨a, ha, by simp, hu⟩

theorem getValidUrlAux_none (articles : List Article) (base : String) :
    ∀ (fuel idx : Nat) (url : String),
      getValidUrlAux articles base url idx fuel = none →
      ∀ k < fuel, (if k = 0 then url else candidateUrl base (idx + k - 1))
        ∈ articles.map Article.url := by
  intro fuel
  induction fuel with
  | zero => intro idx url _ k hk; omega
  | succ f ih =>
    intro idx url h k hk
    unfold getValidUrlAux at h
    by_cases hv : isValidUrl articles url none = true
    · rw [if_pos hv] at h
      cases h
    · rw [if_neg hv] at h
      have hvf : isValidUrl articles url none = false := by
        simpa using hv
      cases k with
      | zero =>
        simpa using (isValidUrl_none_false_iff articles url).1 hvf
      | succ k' =>
        have hmem := ih (idx + 1) (candidateUrl base idx) h k' (by omega)
        cases k' with
        | zero => simpa using hmem
        | succ k'' =>
          have harith : idx + 1 + (k'' + 1) - 1 = idx + (k'' + 1 + 1) - 1 := by omega
          rw [harith] at hmem
          simpa using hmem

theorem getValidUrlAux_some (articles : List Article) (base : String) :
    ∀ (fuel idx : Nat) (url u : String),
      getValidUrlAux articles base url idx fuel = some u →
      isValidUrl articles u none = true ∧ (u = url ∨ ∃ j, u = candidateUrl base j) := by
  intro fuel
  induction fuel with
  | zero => intro idx url u h; cases h
  | succ f ih =>
    intro idx url u h
    unfold getValidUrlAux at h
    by_cases hv : isValidUrl articles url none = true
    · rw [if_pos hv] at h
      cases h
      exact ⟨hv, Or.inl rfl⟩
    · rw [if_neg hv] at h
      obtain ⟨h1, h2⟩ := ih (idx + 1) (candidateUrl base idx) u h
      refine ⟨h1, Or.inr ?_⟩
      rcases h2 with h2 | ⟨j, hj⟩
      · exact ⟨idx, h2⟩
      · exact ⟨j, hj⟩

theorem getValidUrl_total (articles : List Article) (base : String) :
    ∃ u, getValidUrlAux articles base base 1 (articles.length + 1) = some u := by
  by_contra hno
  push_neg at hno
  have hnone : getValidUrlAux articles base base 1 (articles.length + 1) = none := by
    cases hg : getValidUrlAux articles base base 1 (articles.length + 1) with
    | none => rfl
    | some u => exact absurd hg (hno u)
  have hall := getValidUrlAux_none articles base (articles.length + 1) 1 base hnone
  have hmem : ∀ k < articles.length + 1,
      (if k = 0 then base else candidateUrl base k) ∈ articles.map Article.url := by
    intro k hk
    have hthis := hall k hk
    cases k with
    | zero => simpa using hthis
    | succ k' =>
      have harith : 1 + (k' + 1) - 1 = k' + 1 := by omega
      rw [harith] at hthis
      simpa using hthis
  have hnodup : ((List.range (articles.length + 1)).map
      (fun k => if k = 0 then base else candidateUrl base k)).Nodup := by
    refine List.Nodup.map_on ?_ (List.nodup_range _)
    intro i _ j _ hij
    by_cases hi0 : i = 0 <;> by_cases hj0 : j = 0
    · omega
    · subst hi0
      simp only [if_pos rfl, if_neg hj0] at hij
      exact absurd hij.symm (candidateUrl_ne_base base j)
    · subst hj0
      simp only [if_pos rfl, if_neg hi0] at hij
      exact absurd hij (candidateUrl_ne_base base i)
    · simp only [if_neg hi0, if_neg hj0] at hij
      exact candidateUrl_inj base i j hij
  have hsub : ((List.range (articles.length + 1)).map
      (fun k => if k = 0 then base else candidateUrl base k)).toFinset
      ⊆ (articles.map Article.url).toFinset := by
    intro x hx
    rw [List.mem_toFinset] at hx ⊢
    obtain ⟨k, hk, rfl⟩ := List.mem_map.1 hx
    exact hmem k (List.mem_range.1 hk)
  have hcard := Finset.card_le_card hsub
  rw [List.toFinset_card_of_nodup hnodup] at hcard
  have hle := List.toFinset_card_le (l := articles.map Article.url)
  simp only [List.length_map, List.length_range] at hcard hle
  omega

theorem getValidUrl_fresh (articles : List Article) (base : String) :
    getValidUrl articles base ∉ articles.map Article.url
    ∧ ∃ t, getValidUrl articles base = base ++ t := by
  obtain ⟨u, hu⟩ := getValidUrl_total articles base
  have hval := getValidUrlAux_some articles base (articles.length + 1) 1 base u hu
  have hget : getValidUrl articles base = u := by
    simp [getValidUrl, hu]
  rw [hget]
  constructor
  · intro hmem
    have hfalse := (isValidUrl_none_false_iff articles u).2 hmem
    rw [hval.1] at hfalse
    cases hfalse
  · rcases hval.2 with rfl | ⟨j, rfl⟩
    · exact ⟨"", by simp⟩
    · exact ⟨"-" ++ Nat.repr j, by simp [candidateUrl, String.append_assoc]⟩

theorem publishRound_not_mem (n : Nat) :
    ∀ (articles : List Article) (base x : String),
      x ∈ publishRound n articles base → x ∉ articles.map Article.url := by
  induction n with
  | zero => intro _ _ _ h; simp [publishRound] at h
  | succ n ih =>
    intro articles base x hx
    unfold publishRound at hx
    rcases List.mem_cons.1 hx with rfl | hx'
    · exact (getValidUrl_fresh articles base).1
    · intro hmem
      have hnot := ih
        (articles ++ [{ noteId := "", url := getValidUrl articles base }]) base x hx'
      apply hnot
      simp only [List.map_append, List.mem_append]
      exact Or.inl hmem

/-- C5 as frozen is refuted: getValidUrl reads the article collection
and never writes it, so repeated calls with the same base against one
unchanged collection all return the same string (here a-1, twice) -
not pairwise distinct results. -/
theorem getValidUrl_repeat_C5_counterexample : ¬claimFiveLiteral := by
  intro h
  obtain ⟨hnd, -⟩ :=
    h cexArticles "a" 2 ⟨{ noteId := "n1", url := "a" }, by decide, rfl⟩
  have hnot : ¬(List.replicate 2 (getValidUrl cexArticles "a")).Nodup := by decide
  exact hnot hnd

/-- C5 amended: when each returned url is saved into the collection (as
a new article's url) before the next call - the flow the service
supports - N rounds against a collection already containing an article
whose url equals base hand out N pairwise distinct urls, each beginning
with base.  (Unamended, against an unchanged collection, the N calls
coincide: getValidUrl_repeat_C5_counterexample.) -/
theorem getValidUrl_rounds_C5_amended (articles : List Article) (base : String)
    (n : Nat) (_hbase : ∃ a ∈ articles, a.url = base) :
    (publishRound n articles base).length = n
    ∧ (publishRound n articles base).Nodup
    ∧ ∀ u ∈ publishRound n articles base, ∃ t, u = base ++ t := by
  clear _hbase
  refine ⟨?_, ?_, ?_⟩
  · induction n generalizing articles with
    | zero => rfl
    | succ n ih => simp [publishRound, ih]
  · induction n generalizing articles with
    | zero => exact List.nodup_nil
    | succ n ih =>
      unfold publishRound
      rw [List.nodup_cons]
      constructor
      · intro hmem
        have hnot := publishRound_not_mem n
          (articles ++ [{ noteId := "", url := getValidUrl articles base }]) base
          (getValidUrl articles base) hmem
        apply hnot
        simp
      · exact ih _
  · induction n generalizing articles with
    | zero => intro u hu; simp [publishRound] at hu
    | succ n ih =>
      intro u hu
      unfold publishRound at hu
      rcases List.mem_cons.1 hu with rfl | hu'
      · exact (getValidUrl_fresh articles base).2
      · exact ih _ u hu'

/-- Witness for C5 amended: three rounds against the collection holding
url a give three urls, pairwise distinct, the first being a-1 and thus
an extension of a. -/
theorem getValidUrl_rounds_C5_witness :
    (publishRound 3 cexArticles "a").length = 3
    ∧ (publishRound 3 cexArticles "a").Nodup
    ∧ ∃ t, getValidUrl cexArticles "a" = "a" ++ t :=
  ⟨(getValidUrl_rounds_C5_amended cexArticles "a" 3
      ⟨{ noteId := "n1", url := "a" }, by decide, rfl⟩).1,
   (getValidUrl_rounds_C5_amended cexArticles "a" 3
      ⟨{ noteId := "n1", url := "a" }, by decide, rfl⟩).2.1,
   (getValidUrl_rounds_C5_amended cexArticles "a" 3
      ⟨{ noteId := "n1", url := "a" }, by decide, rfl⟩).2.2
     (getValidUrl cexArticles "a") (by
        unfold publishRound
        exact List.mem_cons_self _ _)⟩

end Publisher
